import Mathlib

/-!
Verification of the ledger engine of the blockchain tutorial
(`[Lab0] Blockchain Tutorial.py`).

The Python class `Blockchain` is embedded shallowly:

* `Block` and `Transaction` mirror the dictionaries built by `new_block`
  and `new_transaction`; the pending pool, the chain and the node set form
  `BlockchainState`.
* `Blockchain.hash` serializes a block exactly as
  `json.dumps(block, sort_keys=True).encode()` does (keys sorted
  lexicographically, separators `", "` and `": "`, `ensure_ascii` escaping)
  and digests the UTF-8 bytes with SHA-256, implemented here over `Nat`
  with explicit reduction modulo `2 ^ 32`.
* Python code that can raise (`chain[0]` / `chain[-1]` on an empty list)
  returns `Option`, with `none` for the raised `IndexError`.
* The `time()` timestamp is passed in explicitly as a number; no claim
  inspects its value or its textual representation beyond determinism.
* `resolve_conflicts` takes the list of peer responses obtained by the
  `requests.get` loop, in iteration order; each response carries the HTTP
  status code and the `length` and `chain` fields of the decoded body.
-/

namespace Blockchain

/-! ### SHA-256 over `Nat`, reduced modulo `2 ^ 32` -/

def add32 (a b : Nat) : Nat := (a + b) % 4294967296

def rotr (n a : Nat) : Nat := (a >>> n) + ((a % 2 ^ n) <<< (32 - n))

def bsig0 (x : Nat) : Nat := Nat.xor (rotr 2 x) (Nat.xor (rotr 13 x) (rotr 22 x))

def bsig1 (x : Nat) : Nat := Nat.xor (rotr 6 x) (Nat.xor (rotr 11 x) (rotr 25 x))

def ssig0 (x : Nat) : Nat := Nat.xor (rotr 7 x) (Nat.xor (rotr 18 x) (x >>> 3))

def ssig1 (x : Nat) : Nat := Nat.xor (rotr 17 x) (Nat.xor (rotr 19 x) (x >>> 10))

def chF (x y z : Nat) : Nat := Nat.xor (Nat.land x y) (Nat.land (Nat.xor x 4294967295) z)

def majF (x y z : Nat) : Nat := Nat.xor (Nat.land x y) (Nat.xor (Nat.land x z) (Nat.land y z))

def shaK : List Nat := [1116352408, 1899447441, 3049323471, 3921009573,
  961987163, 1508970993, 2453635748, 2870763221, 3624381080, 310598401,
  607225278, 1426881987, 1925078388, 2162078206, 2614888103, 3248222580,
  3835390401, 4022224774, 264347078, 604807628, 770255983, 1249150122,
  1555081692, 1996064986, 2554220882, 2821834349, 2952996808, 3210313671,
  3336571891, 3584528711, 113926993, 338241895, 666307205, 773529912,
  1294757372, 1396182291, 1695183700, 1986661051, 2177026350, 2456956037,
  2730485921, 2820302411, 3259730800, 3345764771, 3516065817, 3600352804,
  4094571909, 275423344, 430227734, 506948616, 659060556, 883997877,
  958139571, 1322822218, 1537002063, 1747873779, 1955562222, 2024104815,
  2227730452, 2361852424, 2428436474, 2756734187, 3204031479, 3329325298]

structure Hash8 where
  h0 : Nat
  h1 : Nat
  h2 : Nat
  h3 : Nat
  h4 : Nat
  h5 : Nat
  h6 : Nat
  h7 : Nat

structure Regs where
  a : Nat
  b : Nat
  c : Nat
  d : Nat
  e : Nat
  f : Nat
  g : Nat
  h : Nat

def initH : Hash8 :=
  ⟨1779033703, 3144134277, 1013904242, 2773480762, 1359893119, 2600822924, 528734635, 1541459225⟩

def toBytesBE : Nat → Nat → List Nat
  | 0, _ => []
  | k + 1, n => toBytesBE k (n / 256) ++ [n % 256]

def pad_msg (msg : List Nat) : List Nat :=
  let len := msg.length
  msg ++ 128 :: (List.replicate ((119 - len % 64) % 64) 0 ++ toBytesBE 8 (len * 8))

def toWords : List Nat → List Nat
  | b0 :: b1 :: b2 :: b3 :: rest => (((b0 * 256 + b1) * 256 + b2) * 256 + b3) :: toWords rest
  | _ => []

/-- Split a word list into 16-word message blocks (padding guarantees the
length is a multiple of 16). -/
def toBlocks : List Nat → List (List Nat)
  | w0 :: w1 :: w2 :: w3 :: w4 :: w5 :: w6 :: w7 ::
    w8 :: w9 :: w10 :: w11 :: w12 :: w13 :: w14 :: w15 :: rest =>
      [w0, w1, w2, w3, w4, w5, w6, w7, w8, w9, w10, w11, w12, w13, w14, w15] :: toBlocks rest
  | _ => []

/-- Extend the 16-word block to the 64-word message schedule.  The
accumulator holds the words generated so far, newest first; the result is
in forward order. -/
def buildW (acc : List Nat) : Nat → List Nat
  | 0 => acc.reverse
  | t + 1 =>
    let s1 := ssig1 (acc.getD 1 0)
    let s0 := ssig0 (acc.getD 14 0)
    buildW (add32 (add32 s1 (acc.getD 6 0)) (add32 s0 (acc.getD 15 0)) :: acc) t

def compress (hs : Hash8) (m : List Nat) : Hash8 :=
  let w := buildW m.reverse 48
  let r0 : Regs := ⟨hs.h0, hs.h1, hs.h2, hs.h3, hs.h4, hs.h5, hs.h6, hs.h7⟩
  let rf := (shaK.zip w).foldl (fun r kw =>
    let t1 := add32 r.h (add32 (bsig1 r.e)
      (add32 (chF r.e r.f r.g) (add32 kw.1 kw.2)))
    let t2 := add32 (bsig0 r.a) (majF r.a r.b r.c)
    Regs.mk (add32 t1 t2) r.a r.b r.c (add32 r.d t1) r.e r.f r.g) r0
  ⟨add32 hs.h0 rf.a, add32 hs.h1 rf.b, add32 hs.h2 rf.c, add32 hs.h3 rf.d,
   add32 hs.h4 rf.e, add32 hs.h5 rf.f, add32 hs.h6 rf.g, add32 hs.h7 rf.h⟩

def sha256w (msg : List Nat) : Hash8 :=
  (toBlocks (toWords (pad_msg msg))).foldl compress initH

def hex_digit : Nat → Char
  | 0 => '0'
  | 1 => '1'
  | 2 => '2'
  | 3 => '3'
  | 4 => '4'
  | 5 => '5'
  | 6 => '6'
  | 7 => '7'
  | 8 => '8'
  | 9 => '9'
  | 10 => 'a'
  | 11 => 'b'
  | 12 => 'c'
  | 13 => 'd'
  | 14 => 'e'
  | _ => 'f'

def word_hex (w : Nat) : List Char :=
  (List.range 8).map fun i => hex_digit (w / 16 ^ (7 - i) % 16)

/-- The lowercase hexadecimal SHA-256 digest of a byte list, as
`hashlib.sha256(bytes).hexdigest()` produces it. -/
def sha256_hex (msg : List Nat) : String :=
  let hs := sha256w msg
  String.mk (word_hex hs.h0 ++ word_hex hs.h1 ++ word_hex hs.h2 ++ word_hex hs.h3 ++
    word_hex hs.h4 ++ word_hex hs.h5 ++ word_hex hs.h6 ++ word_hex hs.h7)

/-! ### UTF-8 encoding, as `str.encode()` produces it -/

def utf8_char (n : Nat) : List Nat :=
  if n < 128 then [n]
  else if n < 2048 then [192 + n / 64, 128 + n % 64]
  else if n < 65536 then [224 + n / 4096, 128 + n / 64 % 64, 128 + n % 64]
  else [240 + n / 262144, 128 + n / 4096 % 64, 128 + n / 64 % 64, 128 + n % 64]

def utf8_bytes (s : String) : List Nat :=
  (s.toList.map (fun c => utf8_char c.toNat)).foldr (· ++ ·) []

/-! ### Data model

A transaction is the dictionary built by `new_transaction`; a block is the
dictionary built by `new_block`.  The Python `amount` is any number and the
timestamp is `time()`; both are modelled as integers here (no claim depends
on non-integral values), with the timestamp supplied explicitly by the
caller as the current time. -/

structure Transaction where
  sender : String
  recipient : String
  amount : Int
deriving DecidableEq

structure Block where
  index : Nat
  timestamp : Nat
  transactions : List Transaction
  proof : Nat
  previous_hash : String
deriving DecidableEq

/-- The mutable fields of the Python `Blockchain` object. -/
structure BlockchainState where
  current_transactions : List Transaction
  chain : List Block
  nodes : List String
deriving DecidableEq

/-! ### `json.dumps(block, sort_keys=True)`

Python renders a dict by sorting its items by key and joining
`json_string key ++ ": " ++ rendered value` with `", "`; `ensure_ascii`
is on by default, so every character outside printable ASCII is written
as a `\uXXXX` escape and the encoded byte string is pure ASCII. -/

def hex4 (n : Nat) : String :=
  String.mk ((List.range 4).map fun i => hex_digit (n / 16 ^ (3 - i) % 16))

def json_escape_char (c : Char) : String :=
  let n := c.toNat
  if n = 34 then "\\\""
  else if n = 92 then "\\\\"
  else if n = 8 then "\\b"
  else if n = 9 then "\\t"
  else if n = 10 then "\\n"
  else if n = 12 then "\\f"
  else if n = 13 then "\\r"
  else if 32 ≤ n && n ≤ 126 then String.singleton c
  else if n < 65536 then "\\u" ++ hex4 n
  else "\\u" ++ hex4 (55296 + (n - 65536) / 1024) ++ "\\u" ++ hex4 (56320 + (n - 65536) % 1024)

def json_string (s : String) : String :=
  "\"" ++ String.join (s.toList.map json_escape_char) ++ "\""

/-- Lexicographic comparison of character lists by code point, the order
Python uses on strings. -/
def chars_le : List Char → List Char → Bool
  | [], _ => true
  | _ :: _, [] => false
  | c :: cs, d :: ds =>
    if c.toNat < d.toNat then true
    else if d.toNat < c.toNat then false
    else chars_le cs ds

def key_le (a b : String) : Bool := chars_le a.toList b.toList

def insert_sorted (kv : String × String) : List (String × String) → List (String × String)
  | [] => [kv]
  | x :: xs => if key_le kv.1 x.1 then kv :: x :: xs else x :: insert_sorted kv xs

/-- Sort object items by key, as `sort_keys=True` does.  A Python dict
never holds two items with the same key, so on the inputs that occur any
comparison sort by key computes the same list as `sorted`. -/
def sort_fields : List (String × String) → List (String × String)
  | [] => []
  | x :: xs => insert_sorted x (sort_fields xs)

/-- Render a JSON object from already-rendered field values, sorting the
items by key as `sort_keys=True` does. -/
def render_obj (fields : List (String × String)) : String :=
  "\x7b" ++ String.intercalate ", "
    ((sort_fields fields).map
      (fun kv => json_string kv.1 ++ ": " ++ kv.2)) ++ "\x7d"

def render_arr (items : List String) : String :=
  "[" ++ String.intercalate ", " items ++ "]"

/-- The fields of the transaction dict, in the insertion order used by
`new_transaction`. -/
def transaction_fields (t : Transaction) : List (String × String) :=
  [("sender", json_string t.sender),
   ("recipient", json_string t.recipient),
   ("amount", toString t.amount)]

/-- The fields of the block dict, in the insertion order used by
`new_block`. -/
def block_fields (b : Block) : List (String × String) :=
  [("index", toString b.index),
   ("timestamp", toString b.timestamp),
   ("transactions",
     render_arr (b.transactions.map (fun t => render_obj (transaction_fields t)))),
   ("proof", toString b.proof),
   ("previous_hash", json_string b.previous_hash)]

/-- `Blockchain.hash`: the SHA-256 hexdigest of
`json.dumps(block, sort_keys=True).encode()`. -/
def hash (block : Block) : String :=
  sha256_hex (utf8_bytes (render_obj (block_fields block)))

/-- `Blockchain.valid_proof`: SHA-256 of `f string {last_proof}{proof}{last_hash}`
encoded, checked to start with four `0` hex digits. -/
def valid_proof (last_proof proof : Nat) (last_hash : String) : Bool :=
  let guess := toString last_proof ++ toString proof ++ last_hash
  let guess_hash := sha256_hex (utf8_bytes guess)
  guess_hash.take 4 == "0000"

/-! ### `Blockchain.valid_chain`

The Python code reads `chain[0]` before the loop, so an empty chain raises
`IndexError`: the result is `none`.  On a non-empty chain the `while` loop
walks the adjacent pairs, returning `False` at the first broken link. -/

def valid_chain_loop (last_block : Block) : List Block → Bool
  | [] => true
  | block :: rest =>
    let last_block_hash := hash last_block
    if block.previous_hash ≠ last_block_hash then false
    else if ¬ valid_proof last_block.proof block.proof last_block_hash then false
    else valid_chain_loop block rest

def valid_chain (chain : List Block) : Option Bool :=
  match chain with
  | [] => none
  | first :: rest => some (valid_chain_loop first rest)

/-! ### `Blockchain.resolve_conflicts`

The loop body, given one peer response.  The scan state is the pair of
`max_length` and the optional `new_chain`; a raised `IndexError` from
`valid_chain` (empty fetched chain) makes the whole call raise, hence the
`Option` result.  Note the short-circuit: `valid_chain` only runs when the
reported `length` exceeds the running maximum. -/

structure PeerResponse where
  status_code : Nat
  length : Nat
  chain : List Block
deriving DecidableEq

def resolve_step (st : Nat × Option (List Block)) (r : PeerResponse) :
    Option (Nat × Option (List Block)) :=
  if r.status_code = 200 then
    if st.1 < r.length then
      match valid_chain r.chain with
      | none => none
      | some true => some (r.length, some r.chain)
      | some false => some st
    else some st
  else some st

/-- `resolve_conflicts`, applied to the local chain and the list of peer
responses in iteration order.  The result is the returned boolean paired
with the chain field afterwards; `none` models an uncaught exception.
The final `if new_chain:` test is modelled by the `Option`: an adopted
chain passed `valid_chain`, so it is never the empty (falsy) list. -/
def resolve_conflicts (chain : List Block) (responses : List PeerResponse) :
    Option (Bool × List Block) :=
  match responses.foldlM resolve_step (chain.length, none) with
  | none => none
  | some (_, some new_chain) => some (true, new_chain)
  | some (_, none) => some (false, chain)

/-! ### Ledger state operations -/

def last_block (st : BlockchainState) : Option Block :=
  st.chain.getLast?

/-- `Blockchain.new_block`.  The `timestamp = time()` call is passed in as
`now`.  A falsy `previous_hash` argument (`None` or the empty string)
falls back to the hash of the last chain block, raising (`none`) if the
chain is empty. -/
def new_block (st : BlockchainState) (now : Nat) (proof : Nat)
    (previous_hash : Option String) : Option (Block × BlockchainState) :=
  let build : String → Block × BlockchainState := fun ph =>
    let block : Block :=
      { index := st.chain.length + 1
        timestamp := now
        transactions := st.current_transactions
        proof := proof
        previous_hash := ph }
    (block, { current_transactions := [], chain := st.chain ++ [block], nodes := st.nodes })
  match previous_hash with
  | some s =>
    if s = "" then
      match last_block st with
      | some lb => some (build (hash lb))
      | none => none
    else some (build s)
  | none =>
    match last_block st with
    | some lb => some (build (hash lb))
    | none => none

/-- `Blockchain.new_transaction`: append to the pending pool, return the
index of the block that will hold the transaction
(`self.last_block[index] + 1`, raising on an empty chain). -/
def new_transaction (st : BlockchainState) (sender recipient : String) (amount : Int) :
    Option (Nat × BlockchainState) :=
  let st' : BlockchainState :=
    { st with current_transactions :=
        st.current_transactions ++ [{ sender := sender, recipient := recipient, amount := amount }] }
  match last_block st' with
  | some lb => some (lb.index + 1, st')
  | none => none

/-- `Blockchain.proof_of_work`: starting from 0, increment until
`valid_proof` holds.  The unbounded `while` loop terminates exactly when a
satisfying proof exists, so the embedding takes that existence as an
argument and returns the least satisfying candidate. -/
def proof_of_work (lb : Block)
    (h : ∃ p, valid_proof lb.proof p (hash lb) = true) : Nat :=
  Nat.find h

/-- The state of a freshly constructed `Blockchain` object:
`__init__` creates the genesis block through
`new_block(previous_hash=1-string, proof=100)` on the empty state. -/
def emptyState : BlockchainState := ⟨[], [], []⟩

def initState (now : Nat) : BlockchainState :=
  match new_block emptyState now 100 (some "1") with
  | some (_, st) => st
  | none => emptyState

/-- States reachable through the public ledger operations: construction,
transaction submission and block sealing. -/
inductive Reachable : BlockchainState → Prop
  | construct (now : Nat) : Reachable (initState now)
  | tx (st : BlockchainState) (s r : String) (a : Int) (i : Nat) (st' : BlockchainState) :
      Reachable st → new_transaction st s r a = some (i, st') → Reachable st'
  | blk (st : BlockchainState) (now p : Nat) (ph : Option String) (b : Block)
      (st' : BlockchainState) :
      Reachable st → new_block st now p ph = some (b, st') → Reachable st'

/-! ### Specification-side predicates -/

/-- The adjacent-pair conditions that `valid_chain` checks, walking from
the first block forward: each later block must point at the digest of the
earlier one, and the difficulty predicate must hold on the pair. -/
def chain_links_ok : Block → List Block → Prop
  | _, [] => True
  | last, block :: rest =>
    block.previous_hash = hash last ∧
      valid_proof last.proof block.proof (hash last) = true ∧
      chain_links_ok block rest

/-- A successfully fetched peer response whose chain passes `valid_chain`. -/
def good_response (r : PeerResponse) : Bool :=
  r.status_code == 200 && valid_chain r.chain == some true

end Blockchain

namespace Blockchain

/-! ### Lemmas about the code-point order used by `sort_fields` -/

theorem chars_le_refl (a : List Char) : chars_le a a = true := by
  induction a with
  | nil => rfl
  | cons c cs ih => simp [chars_le, ih]

theorem chars_le_total (a b : List Char) : chars_le a b = true ∨ chars_le b a = true := by
  induction a generalizing b with
  | nil => left; rfl
  | cons c cs ih =>
    cases b with
    | nil => right; rfl
    | cons d ds =>
      by_cases h1 : c.toNat < d.toNat
      · left; simp [chars_le, h1]
      · by_cases h2 : d.toNat < c.toNat
        · right; simp [chars_le, h2]
        · rcases ih ds with h | h
          · left; simp [chars_le, h1, h2, h]
          · right; simp [chars_le, h1, h2, h]

theorem chars_le_trans (a b c : List Char) (hab : chars_le a b = true)
    (hbc : chars_le b c = true) : chars_le a c = true := by
  induction a generalizing b c with
  | nil => rfl
  | cons x xs ih =>
    cases b with
    | nil => simp [chars_le] at hab
    | cons y ys =>
      cases c with
      | nil => simp [chars_le] at hbc
      | cons z zs =>
        simp only [chars_le] at hab hbc ⊢
        by_cases h1 : x.toNat < y.toNat
        · by_cases h2 : y.toNat < z.toNat
          · simp [Nat.lt_trans h1 h2]
          · by_cases h3 : z.toNat < y.toNat
            · simp [h2, h3] at hbc
            · have : y.toNat = z.toNat := by omega
              simp [this ▸ h1]
        · by_cases h4 : y.toNat < x.toNat
          · simp [h1, h4] at hab
          · have hxy : x.toNat = y.toNat := by omega
            by_cases h2 : y.toNat < z.toNat
            · simp [hxy ▸ h2]
            · by_cases h3 : z.toNat < y.toNat
              · simp [h2, h3] at hbc
              · have hyz : y.toNat = z.toNat := by omega
                simp [h1, h4] at hab
                simp [h2, h3] at hbc
                have hxz : ¬ x.toNat < z.toNat := by omega
                have hzx : ¬ z.toNat < x.toNat := by omega
                simp [hxz, hzx, ih ys zs hab hbc]

theorem chars_le_antisymm (a b : List Char) (hab : chars_le a b = true)
    (hba : chars_le b a = true) : a = b := by
  induction a generalizing b with
  | nil =>
    cases b with
    | nil => rfl
    | cons d ds => simp [chars_le] at hba
  | cons c cs ih =>
    cases b with
    | nil => simp [chars_le] at hab
    | cons d ds =>
      simp only [chars_le] at hab hba
      by_cases h1 : c.toNat < d.toNat
      · simp [h1, Nat.lt_asymm h1] at hba
      · by_cases h2 : d.toNat < c.toNat
        · simp [h1, h2] at hab
        · have hcd : c.toNat = d.toNat := by omega
          have : c = d := by
            have := congrArg Char.ofNat hcd
            rwa [Char.ofNat_toNat, Char.ofNat_toNat] at this
          simp [h1, h2] at hab hba
          exact by rw [this, ih ds hab hba]

theorem key_le_refl (a : String) : key_le a a = true := chars_le_refl _

theorem key_le_total (a b : String) : key_le a b = true ∨ key_le b a = true :=
  chars_le_total _ _

theorem key_le_trans (a b c : String) (hab : key_le a b = true) (hbc : key_le b c = true) :
    key_le a c = true := chars_le_trans _ _ _ hab hbc

theorem key_le_antisymm (a b : String) (hab : key_le a b = true) (hba : key_le b a = true) :
    a = b := by
  have h := chars_le_antisymm _ _ hab hba
  cases a with
  | mk la =>
    cases b with
    | mk lb =>
      simp only [String.toList] at h
      exact congrArg String.mk h

/-! ### The key sort computes a sorted permutation, uniquely so on
duplicate-free keys -/

def field_le (x y : String × String) : Prop := key_le x.1 y.1 = true

theorem insert_sorted_perm (kv : String × String) (l : List (String × String)) :
    (insert_sorted kv l).Perm (kv :: l) := by
  induction l with
  | nil => exact List.Perm.refl _
  | cons x xs ih =>
    by_cases h : key_le kv.1 x.1
    · simp [insert_sorted, h]
    · simp only [insert_sorted, h, if_false]
      exact (ih.cons x).trans (List.Perm.swap kv x xs)

theorem sort_fields_perm (l : List (String × String)) : (sort_fields l).Perm l := by
  induction l with
  | nil => exact List.Perm.refl _
  | cons x xs ih =>
    exact (insert_sorted_perm x (sort_fields xs)).trans (ih.cons x)

theorem insert_sorted_pairwise (kv : String × String) (l : List (String × String))
    (h : l.Pairwise field_le) : (insert_sorted kv l).Pairwise field_le := by
  induction l with
  | nil => simp [insert_sorted, List.pairwise_cons]
  | cons x xs ih =>
    rcases List.pairwise_cons.mp h with ⟨hx, hxs⟩
    by_cases hle : key_le kv.1 x.1
    · simp only [insert_sorted, hle, if_true]
      refine List.pairwise_cons.mpr ⟨?_, h⟩
      intro y hy
      rcases List.mem_cons.mp hy with rfl | hy
      · exact hle
      · exact key_le_trans _ _ _ hle (hx y hy)
    · simp only [insert_sorted, hle, if_false]
      refine List.pairwise_cons.mpr ⟨?_, ih hxs⟩
      intro y hy
      have : y = kv ∨ y ∈ xs := by
        have := (insert_sorted_perm kv xs).mem_iff.mp hy
        simpa using this
      rcases this with heq | hy
      · rw [heq]
        rcases key_le_total kv.1 x.1 with h' | h'
        · exact absurd h' hle
        · exact h'
      · exact hx y hy

theorem sort_fields_pairwise (l : List (String × String)) :
    (sort_fields l).Pairwise field_le := by
  induction l with
  | nil => simp [sort_fields]
  | cons x xs ih => exact insert_sorted_pairwise x _ ih

theorem sorted_perm_nodup_keys_eq :
    ∀ (l₁ l₂ : List (String × String)), l₁.Perm l₂ →
      l₁.Pairwise field_le → l₂.Pairwise field_le →
      (l₁.map Prod.fst).Nodup → l₁ = l₂
  | [], l₂, hp, _, _, _ => hp.nil_eq
  | a :: t₁, [], hp, _, _, _ => absurd hp.symm.nil_eq (by simp)
  | a :: t₁, b :: t₂, hp, h₁, h₂, hn => by
    rcases List.pairwise_cons.mp h₁ with ⟨ha, ht₁⟩
    rcases List.pairwise_cons.mp h₂ with ⟨hb, ht₂⟩
    rcases List.nodup_cons.mp hn with ⟨hna, hnt⟩
    have hab : a = b := by
      have ha2 : a ∈ b :: t₂ := hp.mem_iff.mp (List.mem_cons_self a t₁)
      have hb1 : b ∈ a :: t₁ := hp.mem_iff.mpr (List.mem_cons_self b t₂)
      have hkey : a.1 = b.1 := by
        have h1 : key_le a.1 b.1 = true := by
          rcases List.mem_cons.mp hb1 with rfl | hb1
          · exact key_le_refl _
          · exact ha b hb1
        have h2 : key_le b.1 a.1 = true := by
          rcases List.mem_cons.mp ha2 with rfl | ha2
          · exact key_le_refl _
          · exact hb a ha2
        exact key_le_antisymm _ _ h1 h2
      rcases List.mem_cons.mp hb1 with rfl | hb1
      · rfl
      · exact absurd (hkey ▸ List.mem_map_of_mem Prod.fst hb1) hna
    subst hab
    have hp' : t₁.Perm t₂ := hp.cons_inv
    rw [sorted_perm_nodup_keys_eq t₁ t₂ hp' ht₁ ht₂ hnt]

theorem render_obj_perm (l₁ l₂ : List (String × String)) (hp : l₁.Perm l₂)
    (hn : (l₁.map Prod.fst).Nodup) : render_obj l₁ = render_obj l₂ := by
  have hs : sort_fields l₁ = sort_fields l₂ :=
    sorted_perm_nodup_keys_eq _ _
      ((sort_fields_perm l₁).trans (hp.trans (sort_fields_perm l₂).symm))
      (sort_fields_pairwise l₁) (sort_fields_pairwise l₂)
      ((((sort_fields_perm l₁).map Prod.fst).nodup_iff).mpr hn)
  unfold render_obj
  rw [hs]

theorem word_hex_length (w : Nat) : (word_hex w).length = 8 := by
  simp [word_hex]

theorem string_mk_length (l : List Char) : (String.mk l).length = l.length := rfl

theorem sha256_hex_length (m : List Nat) : (sha256_hex m).length = 64 := by
  simp [sha256_hex, string_mk_length, List.length_append, word_hex_length]

/-! ### Claim theorems -/

/-- Claim C9: a chain of exactly one block always validates, whatever the
content of that block; the first block is never inspected on its own. -/
theorem valid_chain_singleton (b : Block) : valid_chain [b] = some true := rfl

theorem valid_chain_loop_iff (l : List Block) (last : Block) :
    valid_chain_loop last l = true ↔ chain_links_ok last l := by
  induction l generalizing last with
  | nil => simp [valid_chain_loop, chain_links_ok]
  | cons b rest ih =>
    by_cases h1 : b.previous_hash = hash last
    · by_cases h2 : valid_proof last.proof b.proof (hash last) = true
      · simp [valid_chain_loop, chain_links_ok, h1, h2, ih]
      · simp [valid_chain_loop, chain_links_ok, h1, h2]
    · simp [valid_chain_loop, chain_links_ok, h1]

/-- Claim C2 (amended): the empty chain makes `valid_chain` raise an
IndexError (modelled `none`) rather than return false; a non-empty chain
validates exactly when every adjacent pair satisfies the previous-hash
link and the difficulty predicate, and nothing else (timestamps, index
contiguity and transaction content do not appear in the condition). -/
theorem valid_chain_spec :
    valid_chain ([] : List Block) = none ∧
    ∀ (first : Block) (rest : List Block),
      (valid_chain (first :: rest) = some true ↔ chain_links_ok first rest) := by
  refine ⟨rfl, ?_⟩
  intro first rest
  simp [valid_chain, valid_chain_loop_iff]

/-- Claim C2 counterexample: on a chain with fewer than one element the
code does not return false; it raises (the `chain[0]` read), modelled as
`none`. -/
theorem valid_chain_empty_cex :
    valid_chain ([] : List Block) = none ∧ valid_chain ([] : List Block) ≠ some false :=
  ⟨rfl, by decide⟩

/-- Claim C4: `valid_proof` holds exactly when the SHA-256 hexdigest of
the concatenated text of `last_proof`, `proof` and `last_hash` (UTF-8
encoded) starts with four `0` characters; the difficulty `"0000"` is a
fixed constant of the code. -/
theorem valid_proof_spec (lp p : Nat) (lh : String) :
    valid_proof lp p lh = true ↔
      (sha256_hex (utf8_bytes (toString lp ++ toString p ++ lh))).take 4 = "0000" := by
  simp [valid_proof]

/-- Claim C8: the block digest is a deterministic fixed-length (64
hex characters) string, and any insertion order of the block fields
produces the identical digest, because serialization sorts the keys
canonically before hashing. -/
theorem hash_deterministic_canonical (b : Block) (l : List (String × String))
    (hp : l.Perm (block_fields b)) :
    (hash b).length = 64 ∧ sha256_hex (utf8_bytes (render_obj l)) = hash b := by
  constructor
  · exact sha256_hex_length _
  · have hn : (l.map Prod.fst).Nodup := by
      refine ((hp.map Prod.fst).nodup_iff).mpr ?_
      simp [block_fields]
    unfold hash
    rw [render_obj_perm l (block_fields b) hp hn]

/-! ### The consensus scan -/

theorem resolve_fold_spec (rs : List PeerResponse) (m₀ : Nat) (nc₀ : Option (List Block))
    (hne : ∀ r ∈ rs, r.status_code = 200 → r.chain ≠ []) :
    ((∀ r ∈ rs, good_response r = true → r.length ≤ m₀) ∧
      rs.foldlM resolve_step (m₀, nc₀) = some (m₀, nc₀)) ∨
    (∃ r ∈ rs, good_response r = true ∧ m₀ < r.length ∧
      rs.foldlM resolve_step (m₀, nc₀) = some (r.length, some r.chain) ∧
      ∀ x ∈ rs, good_response x = true → x.length ≤ r.length) := by
  induction rs generalizing m₀ nc₀ with
  | nil => left; exact ⟨by simp, by simp⟩
  | cons r rest ih =>
    have hner : ∀ x ∈ rest, x.status_code = 200 → x.chain ≠ [] :=
      fun x hx => hne x (List.mem_cons_of_mem _ hx)
    have hcases :
        (resolve_step (m₀, nc₀) r = some (m₀, nc₀) ∧
          (good_response r = true → r.length ≤ m₀)) ∨
        (good_response r = true ∧ m₀ < r.length ∧
          resolve_step (m₀, nc₀) r = some (r.length, some r.chain)) := by
      by_cases hs : r.status_code = 200
      · by_cases hlen : m₀ < r.length
        · rcases hv : valid_chain r.chain with _ | b
          · cases hcs : r.chain with
            | nil => exact absurd hcs (hne r (List.mem_cons_self r rest) hs)
            | cons c0 crest => rw [hcs] at hv; simp [valid_chain] at hv
          · cases b with
            | true =>
              right
              exact ⟨by simp [good_response, hs, hv], hlen,
                by simp [resolve_step, hs, hlen, hv]⟩
            | false =>
              left
              refine ⟨by simp [resolve_step, hs, hlen, hv], ?_⟩
              intro hg
              simp [good_response, hs, hv] at hg
        · left
          exact ⟨by simp [resolve_step, hs, hlen], fun _ => Nat.not_lt.mp hlen⟩
      · left
        refine ⟨by simp [resolve_step, hs], ?_⟩
        intro hg
        simp [good_response, hs] at hg
    rcases hcases with ⟨hstep, hgr⟩ | ⟨hg, hlen, hstep⟩
    · have hfold : (r :: rest).foldlM resolve_step (m₀, nc₀) =
          rest.foldlM resolve_step (m₀, nc₀) := by
        simp [List.foldlM_cons, hstep]
      rcases ih m₀ nc₀ hner with ⟨hall, hres⟩ | ⟨x, hx, hgx, hlx, hres, hmax⟩
      · left
        refine ⟨?_, by rw [hfold]; exact hres⟩
        intro y hy hgy
        rcases List.mem_cons.mp hy with rfl | hy
        · exact hgr hgy
        · exact hall y hy hgy
      · right
        refine ⟨x, List.mem_cons_of_mem _ hx, hgx, hlx, by rw [hfold]; exact hres, ?_⟩
        intro y hy hgy
        rcases List.mem_cons.mp hy with rfl | hy
        · exact le_trans (hgr hgy) (le_of_lt hlx)
        · exact hmax y hy hgy
    · have hfold : (r :: rest).foldlM resolve_step (m₀, nc₀) =
          rest.foldlM resolve_step (r.length, some r.chain) := by
        simp [List.foldlM_cons, hstep]
      rcases ih r.length (some r.chain) hner with ⟨hall, hres⟩ | ⟨x, hx, hgx, hlx, hres, hmax⟩
      · right
        refine ⟨r, List.mem_cons_self r rest, hg, hlen, by rw [hfold]; exact hres, ?_⟩
        intro y hy hgy
        rcases List.mem_cons.mp hy with rfl | hy
        · exact le_refl _
        · exact hall y hy hgy
      · right
        refine ⟨x, List.mem_cons_of_mem _ hx, hgx, lt_trans hlen hlx,
          by rw [hfold]; exact hres, ?_⟩
        intro y hy hgy
        rcases List.mem_cons.mp hy with rfl | hy
        · exact le_of_lt hlx
        · exact hmax y hy hgy

/-- Claim C1 (amended): with every successfully fetched chain non-empty
(an empty fetched chain makes `valid_chain` raise), `resolve_conflicts`
returns true exactly when some successful response carries a chain that
passes `valid_chain` and whose *reported* length is strictly greater than
the local chain length (so equal reported lengths are never adopted); in
that case the local chain is replaced by the fetched chain of a maximal
such response, and otherwise it is left untouched with result false.
The comparison uses the length reported by the peer, not the number of
blocks actually fetched. -/
theorem resolve_conflicts_spec (localc : List Block) (rs : List PeerResponse)
    (hne : ∀ r ∈ rs, r.status_code = 200 → r.chain ≠ []) :
    ∃ b c, resolve_conflicts localc rs = some (b, c) ∧
      (b = true ↔ ∃ r ∈ rs, good_response r = true ∧ localc.length < r.length) ∧
      (b = true → ∃ r ∈ rs, good_response r = true ∧ localc.length < r.length ∧
        c = r.chain ∧ ∀ x ∈ rs, good_response x = true → x.length ≤ r.length) ∧
      (b = false → c = localc) := by
  rcases resolve_fold_spec rs localc.length none hne with
    ⟨hall, hres⟩ | ⟨r, hr, hg, hl, hres, hmax⟩
  · refine ⟨false, localc, by simp [resolve_conflicts, hres], ?_, ?_, fun _ => rfl⟩
    · refine iff_of_false (by simp) ?_
      rintro ⟨r, hr, hg, hl⟩
      exact absurd hl (Nat.not_lt.mpr (hall r hr hg))
    · intro h
      exact absurd h (by simp)
  · refine ⟨true, r.chain, by simp [resolve_conflicts, hres], ?_, ?_, ?_⟩
    · exact iff_of_true rfl ⟨r, hr, hg, hl⟩
    · exact fun _ => ⟨r, hr, hg, hl, rfl, hmax⟩
    · intro h
      exact absurd h (by simp)

/-- Claim C7: during the scan, a response with a non-success status is
skipped with no effect on the outcome, and a successful response whose
chain fails `valid_chain` is likewise rejected with no exception and no
effect, the scan continuing over the remaining peers (both sides of each
equation run the same scan on the remaining responses, so a later longer
valid chain is still adopted). -/
theorem resolve_conflicts_skips (localc : List Block) (rs₁ rs₂ : List PeerResponse)
    (r : PeerResponse) :
    (r.status_code ≠ 200 →
      resolve_conflicts localc (rs₁ ++ r :: rs₂) = resolve_conflicts localc (rs₁ ++ rs₂)) ∧
    (r.status_code = 200 → valid_chain r.chain = some false →
      resolve_conflicts localc (rs₁ ++ r :: rs₂) = resolve_conflicts localc (rs₁ ++ rs₂)) := by
  have skip : (∀ st, resolve_step st r = some st) →
      resolve_conflicts localc (rs₁ ++ r :: rs₂) = resolve_conflicts localc (rs₁ ++ rs₂) := by
    intro hr
    have key : ∀ (l : List PeerResponse) (st : Nat × Option (List Block)),
        (l ++ r :: rs₂).foldlM resolve_step st = (l ++ rs₂).foldlM resolve_step st := by
      intro l
      induction l with
      | nil => intro st; simp [List.foldlM_cons, hr st]
      | cons x xs ih =>
        intro st
        simp only [List.cons_append, List.foldlM_cons]
        cases hx : resolve_step st x with
        | none => rfl
        | some st' => simp only [Option.bind_eq_bind, Option.some_bind]; exact ih st'
    simp [resolve_conflicts, key rs₁]
  constructor
  · intro h
    exact skip (fun st => by simp [resolve_step, h])
  · intro hs hv
    refine skip (fun st => ?_)
    by_cases hl : st.1 < r.length
    · simp [resolve_step, hs, hl, hv]
    · simp [resolve_step, hs, hl]

/-- Claim C10: a fetched chain is adopted on the strength of the reported
`length` field alone — nothing ties `r.length` to `r.chain.length` — and
the running maximum becomes the reported value: a second peer whose
reported length is at most the first report (even if it exceeds the
actual size of the adopted chain) is not even validated, and the first
fetched chain is kept. -/
theorem resolve_conflicts_reported_length (localc : List Block) (r r' : PeerResponse)
    (h1 : r.status_code = 200) (h2 : valid_chain r.chain = some true)
    (h3 : localc.length < r.length) (h4 : r'.status_code = 200)
    (h5 : r'.length ≤ r.length) :
    resolve_conflicts localc [r, r'] = some (true, r.chain) := by
  have hstep1 : resolve_step (localc.length, none) r = some (r.length, some r.chain) := by
    simp [resolve_step, h1, h3, h2]
  have hstep2 : resolve_step (r.length, some r.chain) r' = some (r.length, some r.chain) := by
    simp [resolve_step, h4, Nat.not_lt.mpr h5]
  simp [resolve_conflicts, List.foldlM_cons, hstep1, hstep2]

/-! ### Mining and ledger operations -/

/-- Claim C3: whenever any proof at all exists for the last block, the
proof-of-work search returns a proof satisfying the difficulty predicate
such that no smaller candidate satisfies it — the first fit of the search
that starts at 0 and increments. -/
theorem proof_of_work_spec (lb : Block)
    (h : ∃ p, valid_proof lb.proof p (hash lb) = true) :
    valid_proof lb.proof (proof_of_work lb h) (hash lb) = true ∧
      ∀ q < proof_of_work lb h, valid_proof lb.proof q (hash lb) = false := by
  refine ⟨Nat.find_spec h, ?_⟩
  intro q hq
  have := Nat.find_min h hq
  simpa using this

/-- Claim C5: on any state with a non-empty chain, `new_block` builds a
block carrying the next index, the pending pool and the given proof, with
the given previous hash or — when the caller passes a falsy value — the
digest of the last block; it then empties the pool, appends the block and
returns it. -/
theorem new_block_spec (st : BlockchainState) (now proof : Nat) (ph : Option String)
    (h : st.chain ≠ []) :
    ∃ b st', new_block st now proof ph = some (b, st') ∧
      b.index = st.chain.length + 1 ∧
      b.timestamp = now ∧
      b.transactions = st.current_transactions ∧
      b.proof = proof ∧
      (∀ s, ph = some s → s ≠ "" → b.previous_hash = s) ∧
      ((ph = none ∨ ph = some "") →
        ∃ lb, st.chain.getLast? = some lb ∧ b.previous_hash = hash lb) ∧
      st'.current_transactions = [] ∧
      st'.chain = st.chain ++ [b] := by
  obtain ⟨lb, hlb⟩ : ∃ lb, st.chain.getLast? = some lb := by
    cases hc : st.chain.getLast? with
    | none => exact absurd (List.getLast?_eq_none_iff.mp hc) h
    | some lb => exact ⟨lb, rfl⟩
  cases ph with
  | none =>
    have hb : new_block st now proof none =
        some (⟨st.chain.length + 1, now, st.current_transactions, proof, hash lb⟩,
          ⟨[], st.chain ++
            [⟨st.chain.length + 1, now, st.current_transactions, proof, hash lb⟩],
            st.nodes⟩) := by
      simp [new_block, last_block, hlb]
    refine ⟨_, _, hb, rfl, rfl, rfl, rfl, ?_, ?_, rfl, rfl⟩
    · intro s hs
      cases hs
    · intro _
      exact ⟨lb, hlb, rfl⟩
  | some s =>
    by_cases hs : s = ""
    · subst hs
      have hb : new_block st now proof (some "") =
          some (⟨st.chain.length + 1, now, st.current_transactions, proof, hash lb⟩,
            ⟨[], st.chain ++
              [⟨st.chain.length + 1, now, st.current_transactions, proof, hash lb⟩],
              st.nodes⟩) := by
        simp [new_block, last_block, hlb]
      refine ⟨_, _, hb, rfl, rfl, rfl, rfl, ?_, ?_, rfl, rfl⟩
      · intro s' hs' hne
        cases hs'
        exact absurd rfl hne
      · intro _
        exact ⟨lb, hlb, rfl⟩
    · have hb : new_block st now proof (some s) =
          some (⟨st.chain.length + 1, now, st.current_transactions, proof, s⟩,
            ⟨[], st.chain ++
              [⟨st.chain.length + 1, now, st.current_transactions, proof, s⟩],
              st.nodes⟩) := by
        simp [new_block, hs]
      refine ⟨_, _, hb, rfl, rfl, rfl, rfl, ?_, ?_, rfl, rfl⟩
      · intro s' hs' _
        cases hs'
        rfl
      · rintro (h' | h')
        · cases h'
        · cases h'
          exact absurd rfl hs

/-- Every state reachable through the ledger operations has a last block
whose index equals the chain length. -/
theorem reachable_inv (st : BlockchainState) (h : Reachable st) :
    ∃ lb, st.chain.getLast? = some lb ∧ lb.index = st.chain.length := by
  induction h with
  | construct now =>
    refine ⟨⟨1, now, [], 100, "1"⟩, ?_, rfl⟩
    have h1 : ("1" : String) ≠ "" := by decide
    simp [initState, new_block, emptyState, h1]
  | tx st s r a i st' _ hop ih =>
    rcases ih with ⟨lb, hlb, hidx⟩
    simp only [new_transaction, last_block] at hop
    cases hc : st.chain.getLast? with
    | none => rw [hc] at hop; cases hop
    | some x =>
      rw [hc] at hop
      cases hop
      exact ⟨lb, hlb, hidx⟩
  | blk st now p ph b st' _ hop ih =>
    rcases ih with ⟨lb, hlb, hidx⟩
    have hne : st.chain ≠ [] := by
      intro hnil
      rw [hnil] at hlb
      cases hlb
    rcases new_block_spec st now p ph hne with
      ⟨b', st'', hop', hbi, _, _, _, _, _, _, hchain⟩
    rw [hop] at hop'
    cases hop'
    refine ⟨b, ?_, ?_⟩
    · rw [hchain]
      exact List.getLast?_concat _
    · rw [hchain, hbi]
      simp

/-- Claim C6: on every state reachable through the public ledger
operations, `new_transaction` appends the transaction to the pending
pool, creates no block (the chain is unchanged) and returns the current
chain length plus one, the index of the block that will hold it. -/
theorem new_transaction_spec (st : BlockchainState) (s r : String) (a : Int)
    (h : Reachable st) :
    ∃ st', new_transaction st s r a = some (st.chain.length + 1, st') ∧
      st'.chain = st.chain ∧
      st'.current_transactions =
        st.current_transactions ++ [{ sender := s, recipient := r, amount := a }] := by
  rcases reachable_inv st h with ⟨lb, hlb, hidx⟩
  refine ⟨⟨st.current_transactions ++ [{ sender := s, recipient := r, amount := a }],
    st.chain, st.nodes⟩, ?_, rfl, rfl⟩
  simp [new_transaction, last_block, hlb, hidx]

/-! ### Concrete instances -/

set_option maxRecDepth 1000000

/-- A genesis-shaped block, sealed at time 0. -/
def demo_genesis : Block := ⟨1, 0, [], 100, "1"⟩

/-- A lone block with arbitrary content; any single-block chain passes
`valid_chain`. -/
def demo_block : Block := ⟨1, 0, [], 0, "x"⟩

/-- A two-block chain whose second block does not point at the digest of
the first, so `valid_chain` returns false on it. -/
def demo_bad_chain : List Block := [demo_genesis, ⟨2, 0, [], 0, "zz"⟩]

/-- Claim C1 counterexample: the literal claim compares actual chain
lengths, but the code trusts the reported `length` field.  A single
successful peer response reporting length 5 for a valid chain of one
block is adopted: resolve returns true and replaces the one-block local
chain, although no fetched chain is strictly longer than the local chain. -/
theorem resolve_conflicts_cex :
    resolve_conflicts [demo_genesis] [⟨200, 5, [demo_block]⟩] =
        some (true, [demo_block]) ∧
      ∀ r ∈ [(⟨200, 5, [demo_block]⟩ : PeerResponse)],
        r.chain.length ≤ [demo_genesis].length := by
  decide

/-- Witness for C1: the amended statement at a one-block local chain and
one adoptable response. -/
theorem resolve_conflicts_spec_witness :
    ∃ b c, resolve_conflicts [demo_genesis] [⟨200, 5, [demo_block]⟩] = some (b, c) ∧
      (b = true ↔ ∃ r ∈ [(⟨200, 5, [demo_block]⟩ : PeerResponse)],
        good_response r = true ∧ [demo_genesis].length < r.length) ∧
      (b = true → ∃ r ∈ [(⟨200, 5, [demo_block]⟩ : PeerResponse)],
        good_response r = true ∧ [demo_genesis].length < r.length ∧
        c = r.chain ∧
        ∀ x ∈ [(⟨200, 5, [demo_block]⟩ : PeerResponse)],
          good_response x = true → x.length ≤ r.length) ∧
      (b = false → c = [demo_genesis]) :=
  resolve_conflicts_spec [demo_genesis] [⟨200, 5, [demo_block]⟩] (by decide)

/-- Witness for C7: a 404 response is dropped from the scan, and a
successful response with an invalid two-block chain is dropped while the
following adoptable response is still scanned. -/
theorem resolve_conflicts_skips_witness :
    (resolve_conflicts [demo_genesis]
        ([] ++ (⟨404, 9, [demo_block]⟩ : PeerResponse) :: []) =
      resolve_conflicts [demo_genesis] ([] ++ [])) ∧
    (resolve_conflicts [demo_genesis]
        ([] ++ (⟨200, 9, demo_bad_chain⟩ : PeerResponse) :: [⟨200, 9, [demo_block]⟩]) =
      resolve_conflicts [demo_genesis] ([] ++ [⟨200, 9, [demo_block]⟩])) :=
  ⟨(resolve_conflicts_skips [demo_genesis] [] [] ⟨404, 9, [demo_block]⟩).1 (by decide),
   (resolve_conflicts_skips [demo_genesis] [] [⟨200, 9, [demo_block]⟩]
      ⟨200, 9, demo_bad_chain⟩).2 rfl (by decide)⟩

/-- Witness for C10: a peer reporting length 7 for a one-block valid
chain is adopted, and a second peer reporting length 5 — more than the
actual size of the adopted chain but at most the first report — is not. -/
theorem resolve_conflicts_reported_length_witness :
    resolve_conflicts [demo_genesis] [⟨200, 7, [demo_block]⟩, ⟨200, 5, [demo_genesis]⟩] =
      some (true, [demo_block]) :=
  resolve_conflicts_reported_length [demo_genesis] ⟨200, 7, [demo_block]⟩
    ⟨200, 5, [demo_genesis]⟩ rfl (by decide) (by decide) rfl (by decide)

/-- The proof 504932 satisfies the difficulty predicate against the
genesis-shaped block, so a proof of work exists for it. -/
theorem demo_pow_exists :
    ∃ p, valid_proof demo_genesis.proof p (hash demo_genesis) = true :=
  ⟨504932, by decide⟩

/-- Witness for C3: the search is well-defined at the genesis-shaped
block, where a satisfying proof exists. -/
theorem proof_of_work_spec_witness :
    valid_proof demo_genesis.proof (proof_of_work demo_genesis demo_pow_exists)
        (hash demo_genesis) = true ∧
      ∀ q < proof_of_work demo_genesis demo_pow_exists,
        valid_proof demo_genesis.proof q (hash demo_genesis) = false :=
  proof_of_work_spec demo_genesis demo_pow_exists

/-- Witness for C5: sealing a block on a one-block chain with one pending
transaction and an explicit previous hash. -/
theorem new_block_spec_witness :
    ∃ b st', new_block ⟨[⟨"a", "b", 5⟩], [demo_genesis], []⟩ 3 7 (some "abc") =
        some (b, st') ∧
      b.index = ([demo_genesis] : List Block).length + 1 ∧
      b.timestamp = 3 ∧
      b.transactions = [⟨"a", "b", 5⟩] ∧
      b.proof = 7 ∧
      (∀ s, (some "abc" : Option String) = some s → s ≠ "" → b.previous_hash = s) ∧
      (((some "abc" : Option String) = none ∨ (some "abc" : Option String) = some "") →
        ∃ lb, ([demo_genesis] : List Block).getLast? = some lb ∧
          b.previous_hash = hash lb) ∧
      st'.current_transactions = [] ∧
      st'.chain = [demo_genesis] ++ [b] :=
  new_block_spec ⟨[⟨"a", "b", 5⟩], [demo_genesis], []⟩ 3 7 (some "abc") (by decide)

/-- Witness for C6: submitting a transaction on a freshly constructed
ledger. -/
theorem new_transaction_spec_witness :
    ∃ st', new_transaction (initState 0) "a" "b" 5 =
        some ((initState 0).chain.length + 1, st') ∧
      st'.chain = (initState 0).chain ∧
      st'.current_transactions = (initState 0).current_transactions ++
        [{ sender := "a", recipient := "b", amount := 5 }] :=
  new_transaction_spec (initState 0) "a" "b" 5 (Reachable.construct 0)

/-- A block with a transaction, used to witness the canonical-hash claim. -/
def demo_tx_block : Block := ⟨2, 7, [⟨"a", "b", 5⟩], 333, "prev"⟩

/-- Witness for C8: the reversed field list of a concrete block with a
transaction digests to the same 64-character hash. -/
theorem hash_deterministic_canonical_witness :
    (hash demo_tx_block).length = 64 ∧
      sha256_hex (utf8_bytes (render_obj (block_fields demo_tx_block).reverse)) =
        hash demo_tx_block :=
  hash_deterministic_canonical demo_tx_block (block_fields demo_tx_block).reverse
    (List.reverse_perm _)

end Blockchain
